import Mathlib

/-!
Verification of the binary search tree implemented in `src/main.rs` of the
repository `basic_binar_tree`.

The Rust code defines `Node<K, V>` (key, value, optional owned left/right
children, raw parent back-pointer) and `Tree<K, V>` (an optional owned root),
with three operations: `insert` (returns `false` on a duplicate key),
`find` (returns a reference to the matching node, i.e. the whole subtree
rooted there) and `detach` (unlinks and returns the whole subtree rooted at
the matching node).

The shallow embedding below mirrors the Rust functions arm by arm.  Raw
parent back-pointers are memory addresses used only for diagnostics; they
carry no information relevant to the functional behaviour of
`insert`/`find`/`detach` and are omitted from the model.
-/

namespace BinarTree

/-- Rust struct `Node<K, V>` from `src/main.rs`: key, value, optional left and right
children (parent back-pointer omitted, see the module comment). -/
inductive Node (K : Type) (V : Type) : Type where
  | mk (key : K) (value : V) (left : Option (Node K V)) (right : Option (Node K V)) : Node K V

namespace Node

variable {K V : Type}

/-- Field accessor for `key`. -/
def key : Node K V → K
  | mk k _ _ _ => k

/-- Field accessor for `value`. -/
def value : Node K V → V
  | mk _ v _ _ => v

/-- Field accessor for `left`. -/
def left : Node K V → Option (Node K V)
  | mk _ _ l _ => l

/-- Field accessor for `right`. -/
def right : Node K V → Option (Node K V)
  | mk _ _ _ r => r

/-- Number of nodes in the subtree rooted at this node. -/
def size : Node K V → Nat
  | mk _ _ l r =>
    1 + (match l with | some ln => ln.size | none => 0)
      + (match r with | some rn => rn.size | none => 0)

/-- In-order list of the keys in the subtree rooted at this node. -/
def keys : Node K V → List K
  | mk k _ l r =>
    (match l with | some ln => ln.keys | none => [])
      ++ k :: (match r with | some rn => rn.keys | none => [])

/-- Keys of an optional node (`[]` for `None`). -/
def keysO : Option (Node K V) → List K
  | some n => n.keys
  | none => []

/-- In-order list of the key/value pairs in the subtree rooted here. -/
def pairs : Node K V → List (K × V)
  | mk k v l r =>
    (match l with | some ln => ln.pairs | none => [])
      ++ (k, v) :: (match r with | some rn => rn.pairs | none => [])

/-- Pairs of an optional node (`[]` for `None`). -/
def pairsO : Option (Node K V) → List (K × V)
  | some n => n.pairs
  | none => []

/-- Rust function `Tree::insert_at` from `src/main.rs`, arm by arm: duplicate key is
rejected with `false`; strictly smaller keys go left (recursing into an
existing left child, attaching a fresh leaf otherwise); all remaining keys
go right likewise.  The Rust mutation of `current_node` is modelled by
returning the updated node together with the boolean result. -/
def insert_at [LinearOrder K] : Node K V → K → V → Node K V × Bool
  | mk k v l r, ky, vl =>
    if ky = k then (mk k v l r, false)
    else if ky < k then
      match l with
      | some ln =>
        let p := ln.insert_at ky vl
        (mk k v (some p.1) r, p.2)
      | none => (mk k v (some (mk ky vl none none)) r, true)
    else
      match r with
      | some rn =>
        let p := rn.insert_at ky vl
        (mk k v l (some p.1), p.2)
      | none => (mk k v l (some (mk ky vl none none)), true)

/-- Rust function `Tree::find_at` from `src/main.rs`, arm by arm: return the current node
on key equality, descend left when `current_node.key >= key` (reporting
not-found if there is no left child), otherwise descend right. -/
def find_at [LinearOrder K] : Node K V → K → Option (Node K V)
  | mk k v l r, ky =>
    if k = ky then some (mk k v l r)
    else if ky ≤ k then
      match l with
      | some ln => ln.find_at ky
      | none => none
    else
      match r with
      | some rn => rn.find_at ky
      | none => none

/-- Rust function `Tree::detach_at` from `src/main.rs`, arm by arm: if the immediate left
child matches the key, unlink and return it; else if the immediate right
child matches, unlink and return it; otherwise recurse left when
`current_node.key >= key` and right otherwise, reporting not-found when the
required child is absent.  The Rust in-place `take()` is modelled by
returning the updated node together with the detached subtree. -/
def detach_at [LinearOrder K] : Node K V → K → Node K V × Option (Node K V)
  | mk k v (some ln) (some rn), ky =>
    if ln.key = ky then (mk k v none (some rn), some ln)
    else if rn.key = ky then (mk k v (some ln) none, some rn)
    else if ky ≤ k then
      let p := ln.detach_at ky
      (mk k v (some p.1) (some rn), p.2)
    else
      let p := rn.detach_at ky
      (mk k v (some ln) (some p.1), p.2)
  | mk k v (some ln) none, ky =>
    if ln.key = ky then (mk k v none none, some ln)
    else if ky ≤ k then
      let p := ln.detach_at ky
      (mk k v (some p.1) none, p.2)
    else (mk k v (some ln) none, none)
  | mk k v none (some rn), ky =>
    if rn.key = ky then (mk k v none none, some rn)
    else if ky ≤ k then (mk k v none (some rn), none)
    else
      let p := rn.detach_at ky
      (mk k v none (some p.1), p.2)
  | mk k v none none, _ => (mk k v none none, none)

/-- The binary-search-tree shape invariant, checked recursively at every
node: all keys of the left subtree are strictly below the node's key and
all keys of the right subtree are strictly above it. -/
def ordered [LinearOrder K] : Node K V → Bool
  | mk k _ l r =>
    (match l with
      | some ln => (ln.keys.all fun x => decide (x < k)) && ln.ordered
      | none => true)
      && (match r with
        | some rn => (rn.keys.all fun x => decide (k < x)) && rn.ordered
        | none => true)

/-- Shape invariant of an optional node (`true` for `None`). -/
def orderedO [LinearOrder K] : Option (Node K V) → Bool
  | some n => n.ordered
  | none => true

/-- Modelled from the spec: design note §9 of the specification describes
the strict-greater-left variant of `find_at`, descending left only when
`current_node.key > key` instead of `current_node.key >= key`. -/
def findStrict_at [LinearOrder K] : Node K V → K → Option (Node K V)
  | mk k v l r, ky =>
    if k = ky then some (mk k v l r)
    else if ky < k then
      match l with
      | some ln => ln.findStrict_at ky
      | none => none
    else
      match r with
      | some rn => rn.findStrict_at ky
      | none => none

end Node

/-- Rust struct `Tree<K, V>` from `src/main.rs`: an optional owned root node. -/
structure Tree (K : Type) (V : Type) : Type where
  root : Option (Node K V)

namespace Tree

variable {K V : Type}

/-- Rust function `Tree::new`: the empty tree. -/
def new : Tree K V := ⟨none⟩

/-- Rust function `Tree::insert`: on an empty tree the pair becomes the root and the call
returns `true`; otherwise defer to `insert_at` on the root. -/
def insert [LinearOrder K] (t : Tree K V) (ky : K) (vl : V) : Tree K V × Bool :=
  match t.root with
  | some n =>
    let p := n.insert_at ky vl
    (⟨some p.1⟩, p.2)
  | none => (⟨some (.mk ky vl none none)⟩, true)

/-- Rust function `Tree::find`: returns `None` on an empty tree, otherwise defers to `find_at` on the root. -/
def find [LinearOrder K] (t : Tree K V) (ky : K) : Option (Node K V) :=
  match t.root with
  | none => none
  | some n => n.find_at ky

/-- Rust function `Tree::detach`: returns `None` on an empty tree; if the root matches the key the
root is taken out whole (`self.root.take()`); otherwise defer to
`detach_at` on the root. -/
def detach [LinearOrder K] (t : Tree K V) (ky : K) : Tree K V × Option (Node K V) :=
  match t.root with
  | none => (⟨none⟩, none)
  | some n =>
    if n.key = ky then (⟨none⟩, some n)
    else
      let p := n.detach_at ky
      (⟨some p.1⟩, p.2)

/-- Modelled from the spec: design note §9, `find` with the
strict-greater-left descent policy. -/
def findStrict [LinearOrder K] (t : Tree K V) (ky : K) : Option (Node K V) :=
  match t.root with
  | none => none
  | some n => n.findStrict_at ky

/-- Number of nodes in the tree. -/
def size (t : Tree K V) : Nat :=
  match t.root with
  | none => 0
  | some n => n.size

/-- In-order list of the keys in the tree. -/
def keys (t : Tree K V) : List K := Node.keysO t.root

/-- In-order list of the key/value pairs in the tree. -/
def pairs (t : Tree K V) : List (K × V) := Node.pairsO t.root

/-- Shape invariant of the tree. -/
def ordered [LinearOrder K] (t : Tree K V) : Bool := Node.orderedO t.root

end Tree

/-- Fold a list of key/value pairs through `Tree.insert`, discarding the
boolean results. -/
def insertList [LinearOrder K] : Tree K V → List (K × V) → Tree K V
  | t, [] => t
  | t, p :: rest => insertList (t.insert p.1 p.2).1 rest

/-- The demonstration loop of `main`: insert each key with itself as value,
collecting the boolean results in order. -/
def runInserts [LinearOrder K] : Tree K K → List K → Tree K K × List Bool
  | t, [] => (t, [])
  | t, k :: rest =>
    let p := t.insert k k
    let q := runInserts p.1 rest
    (q.1, p.2 :: q.2)

/-- First-occurrence association lookup in a list of key/value pairs. -/
def alookup [DecidableEq K] : List (K × V) → K → Option V
  | [], _ => none
  | p :: rest, k => if p.1 = k then some p.2 else alookup rest k

/-- The value stored at a key, as observed through `Tree.find`. -/
def lookupValue [LinearOrder K] (t : Tree K V) (k : K) : Option V :=
  (t.find k).map Node.value

end BinarTree

/-! ### Basic lemmas about the embedding -/

namespace BinarTree

namespace Node

variable {K V : Type}

@[simp] theorem keysO_none : (keysO (none : Option (Node K V))) = [] := rfl

@[simp] theorem keysO_some (n : Node K V) : keysO (some n) = n.keys := rfl

@[simp] theorem orderedO_none [LinearOrder K] :
    (orderedO (none : Option (Node K V))) = true := rfl

@[simp] theorem orderedO_some [LinearOrder K] (n : Node K V) :
    orderedO (some n) = n.ordered := rfl

@[simp] theorem key_mk (k : K) (v : V) (l r : Option (Node K V)) :
    (mk k v l r).key = k := rfl

@[simp] theorem value_mk (k : K) (v : V) (l r : Option (Node K V)) :
    (mk k v l r).value = v := rfl

theorem keys_mk (k : K) (v : V) (l r : Option (Node K V)) :
    (mk k v l r).keys = keysO l ++ k :: keysO r := by
  cases l <;> cases r <;> rfl

theorem ordered_mk [LinearOrder K] (k : K) (v : V) (l r : Option (Node K V)) :
    (mk k v l r).ordered = true ↔
      ((∀ x ∈ keysO l, x < k) ∧ (∀ x ∈ keysO r, k < x)
        ∧ orderedO l = true ∧ orderedO r = true) := by
  cases l <;> cases r <;>
    simp [ordered, orderedO, keysO, List.all_eq_true] <;> tauto

theorem size_mk (k : K) (v : V) (l r : Option (Node K V)) :
    (mk k v l r).size
      = 1 + (match l with | some ln => ln.size | none => 0)
          + (match r with | some rn => rn.size | none => 0) := by
  cases l <;> cases r <;> rfl

theorem size_left_lt (k : K) (v : V) (ln : Node K V) (r : Option (Node K V)) :
    ln.size < (mk k v (some ln) r).size := by
  rw [size_mk]
  cases r <;> simp <;> omega

theorem size_right_lt (k : K) (v : V) (l : Option (Node K V)) (rn : Node K V) :
    rn.size < (mk k v l (some rn)).size := by
  rw [size_mk]
  cases l <;> simp <;> omega

/-- Induction principle for `Node`, peeling optional children. -/
theorem indOn {P : Node K V → Prop}
    (h : ∀ k v l r, (∀ ln, l = some ln → P ln) → (∀ rn, r = some rn → P rn)
      → P (mk k v l r))
    (n : Node K V) : P n := by
  have main : ∀ N : Nat, ∀ m : Node K V, m.size ≤ N → P m := by
    intro N
    induction N with
    | zero =>
      intro m hm
      cases m with
      | mk k v l r =>
        rw [size_mk] at hm
        omega
    | succ N ih =>
      intro m hm
      cases m with
      | mk k v l r =>
        apply h
        · intro ln hl
          apply ih
          have := size_left_lt k v ln r
          rw [hl] at hm
          omega
        · intro rn hr
          apply ih
          have := size_right_lt k v l rn
          rw [hr] at hm
          omega
  exact main n.size n le_rfl

theorem self_mem_keys (k : K) (v : V) (l r : Option (Node K V)) :
    k ∈ (mk k v l r).keys := by
  rw [keys_mk]
  simp

theorem key_mem_keys (n : Node K V) : n.key ∈ n.keys := by
  cases n with
  | mk k v l r => simpa using self_mem_keys k v l r

theorem sorted_keys [LinearOrder K] (n : Node K V) (h : n.ordered = true) :
    n.keys.Pairwise (· < ·) := by
  induction n using indOn with
  | h k v l r ihl ihr =>
    rw [ordered_mk] at h
    obtain ⟨hlb, hrb, hlo, hro⟩ := h
    rw [keys_mk, List.pairwise_append]
    refine ⟨?_, ?_, ?_⟩
    · cases l with
      | none => simp
      | some ln => exact ihl ln rfl hlo
    · rw [List.pairwise_cons]
      constructor
      · exact hrb
      · cases r with
        | none => simp
        | some rn => exact ihr rn rfl hro
    · intro x hx y hy
      rcases List.mem_cons.mp hy with hy | hy
      · exact hy ▸ hlb x hx
      · exact lt_trans (hlb x hx) (hrb y hy)

theorem nodup_keys [LinearOrder K] (n : Node K V) (h : n.ordered = true) :
    n.keys.Nodup := by
  exact (sorted_keys n h).imp (fun hab => ne_of_lt hab)

end Node

end BinarTree

namespace BinarTree

namespace Node

variable {K V : Type}

@[simp] theorem pairsO_none : (pairsO (none : Option (Node K V))) = [] := rfl

@[simp] theorem pairsO_some (n : Node K V) : pairsO (some n) = n.pairs := rfl

theorem pairs_mk (k : K) (v : V) (l r : Option (Node K V)) :
    (mk k v l r).pairs = pairsO l ++ (k, v) :: pairsO r := by
  cases l <;> cases r <;> rfl

theorem keys_eq_map_fst (n : Node K V) : n.keys = n.pairs.map Prod.fst := by
  induction n using indOn with
  | h k v l r ihl ihr =>
    rw [keys_mk, pairs_mk, List.map_append]
    cases l with
    | none =>
      cases r with
      | none => simp
      | some rn => simp [ihr rn rfl]
    | some ln =>
      cases r with
      | none => simp [ihl ln rfl]
      | some rn => simp [ihl ln rfl, ihr rn rfl]

theorem keysO_eq_map_fst (l : Option (Node K V)) :
    keysO l = (pairsO l).map Prod.fst := by
  cases l with
  | none => rfl
  | some n => exact keys_eq_map_fst n

end Node

section Alookup

variable {K V : Type} [DecidableEq K]

@[simp] theorem alookup_nil (k : K) : alookup ([] : List (K × V)) k = none := rfl

theorem alookup_cons (p : K × V) (l : List (K × V)) (k : K) :
    alookup (p :: l) k = if p.1 = k then some p.2 else alookup l k := rfl

theorem alookup_append (a b : List (K × V)) (k : K) :
    alookup (a ++ b) k
      = match alookup a k with
        | some v => some v
        | none => alookup b k := by
  induction a with
  | nil => simp
  | cons p rest ih =>
    by_cases hp : p.1 = k
    · simp [alookup_cons, hp]
    · simp [alookup_cons, hp, ih]

theorem alookup_eq_none_iff (l : List (K × V)) (k : K) :
    alookup l k = none ↔ k ∉ l.map Prod.fst := by
  induction l with
  | nil => simp
  | cons p rest ih =>
    rw [alookup_cons]
    by_cases hp : p.1 = k
    · simp [hp]
    · rw [if_neg hp, ih]
      simp only [List.map_cons, List.mem_cons, not_or]
      constructor
      · intro h
        exact ⟨fun hk => hp hk.symm, h⟩
      · exact And.right

theorem alookup_mem {l : List (K × V)} {k : K} {v : V}
    (h : alookup l k = some v) : (k, v) ∈ l := by
  induction l with
  | nil => simp at h
  | cons p rest ih =>
    by_cases hp : p.1 = k
    · rw [alookup_cons, if_pos hp] at h
      have hv : p.2 = v := by simpa using h
      have hkv : (k, v) = p := Prod.ext_iff.mpr ⟨hp.symm, hv.symm⟩
      rw [hkv]
      exact List.mem_cons_self p rest
    · rw [alookup_cons, if_neg hp] at h
      exact List.mem_cons_of_mem p (ih h)

theorem mem_alookup {l : List (K × V)} {k : K} {v : V}
    (hnd : (l.map Prod.fst).Nodup) (h : (k, v) ∈ l) : alookup l k = some v := by
  induction l with
  | nil => simp at h
  | cons p rest ih =>
    rw [List.map_cons, List.nodup_cons] at hnd
    rcases List.mem_cons.mp h with h | h
    · subst h
      simp [alookup_cons]
    · have hp : p.1 ≠ k := by
        intro hk
        exact hnd.1 (hk ▸ (List.mem_map.mpr ⟨(k, v), h, rfl⟩))
      rw [alookup_cons, if_neg hp]
      exact ih hnd.2 h

theorem alookup_perm {l₁ l₂ : List (K × V)} (hp : l₁.Perm l₂)
    (hnd : (l₁.map Prod.fst).Nodup) (k : K) : alookup l₁ k = alookup l₂ k := by
  have hnd₂ : (l₂.map Prod.fst).Nodup := ((hp.map Prod.fst).nodup_iff).mp hnd
  cases hv : alookup l₁ k with
  | some v =>
    exact (mem_alookup hnd₂ (hp.mem_iff.mp (alookup_mem hv))).symm
  | none =>
    have : k ∉ l₂.map Prod.fst := by
      intro hk
      exact (alookup_eq_none_iff l₁ k).mp hv (((hp.map Prod.fst).mem_iff).mpr hk)
    exact ((alookup_eq_none_iff l₂ k).mpr this).symm

end Alookup

end BinarTree

namespace BinarTree

namespace Node

variable {K V : Type}

theorem find_at_mk [LinearOrder K] (k : K) (v : V) (l r : Option (Node K V)) (ky : K) :
    find_at (mk k v l r) ky
      = if k = ky then some (mk k v l r)
        else if ky ≤ k then
          match l with
          | some ln => ln.find_at ky
          | none => none
        else
          match r with
          | some rn => rn.find_at ky
          | none => none := by
  cases l <;> cases r <;> simp only [find_at]

theorem findStrict_at_mk [LinearOrder K] (k : K) (v : V) (l r : Option (Node K V)) (ky : K) :
    findStrict_at (mk k v l r) ky
      = if k = ky then some (mk k v l r)
        else if ky < k then
          match l with
          | some ln => ln.findStrict_at ky
          | none => none
        else
          match r with
          | some rn => rn.findStrict_at ky
          | none => none := by
  cases l <;> cases r <;> simp only [findStrict_at]

theorem insert_at_mk [LinearOrder K] (k : K) (v : V) (l r : Option (Node K V)) (ky : K) (vl : V) :
    insert_at (mk k v l r) ky vl
      = if ky = k then (mk k v l r, false)
        else if ky < k then
          match l with
          | some ln => (mk k v (some (ln.insert_at ky vl).1) r, (ln.insert_at ky vl).2)
          | none => (mk k v (some (mk ky vl none none)) r, true)
        else
          match r with
          | some rn => (mk k v l (some (rn.insert_at ky vl).1), (rn.insert_at ky vl).2)
          | none => (mk k v l (some (mk ky vl none none)), true) := by
  cases l <;> cases r <;> simp only [insert_at]

theorem find_at_key [LinearOrder K] (n : Node K V) :
    ∀ ky m, n.find_at ky = some m → m.key = ky := by
  induction n using indOn with
  | h k v l r ihl ihr =>
    intro ky m hm
    rw [find_at_mk] at hm
    by_cases hk : k = ky
    · rw [if_pos hk] at hm
      injection hm with h
      rw [← h]
      simpa using hk
    · rw [if_neg hk] at hm
      by_cases hle : ky ≤ k
      · rw [if_pos hle] at hm
        cases l with
        | none => simp at hm
        | some ln => exact ihl ln rfl ky m hm
      · rw [if_neg hle] at hm
        cases r with
        | none => simp at hm
        | some rn => exact ihr rn rfl ky m hm

theorem find_at_eq_findStrict_at [LinearOrder K] (n : Node K V) :
    ∀ ky, n.find_at ky = n.findStrict_at ky := by
  induction n using indOn with
  | h k v l r ihl ihr =>
    intro ky
    rw [find_at_mk, findStrict_at_mk]
    by_cases hk : k = ky
    · rw [if_pos hk, if_pos hk]
    · rw [if_neg hk, if_neg hk]
      by_cases hle : ky ≤ k
      · rw [if_pos hle, if_pos (lt_of_le_of_ne hle (fun he => hk he.symm))]
        cases l with
        | none => rfl
        | some ln => exact ihl ln rfl ky
      · rw [if_neg hle, if_neg (fun hlt => hle (le_of_lt hlt))]
        cases r with
        | none => rfl
        | some rn => exact ihr rn rfl ky

theorem find_at_value [LinearOrder K] (n : Node K V) (ho : n.ordered = true) :
    ∀ ky, (n.find_at ky).map value = alookup n.pairs ky := by
  induction n using indOn with
  | h k v l r ihl ihr =>
    rw [ordered_mk] at ho
    obtain ⟨hlb, hrb, hlo, hro⟩ := ho
    intro ky
    rw [pairs_mk, alookup_append, find_at_mk]
    by_cases hk : k = ky
    · subst hk
      rw [if_pos rfl]
      have h1 : alookup (pairsO l) k = none := by
        rw [alookup_eq_none_iff, ← keysO_eq_map_fst]
        intro hmem
        exact absurd (hlb k hmem) (lt_irrefl k)
      rw [h1]
      simp [alookup_cons]
    · rw [if_neg hk]
      by_cases hle : ky ≤ k
      · have hlt : ky < k := lt_of_le_of_ne hle (fun he => hk he.symm)
        rw [if_pos hle]
        have hr1 : alookup (pairsO r) ky = none := by
          rw [alookup_eq_none_iff, ← keysO_eq_map_fst]
          intro hmem
          exact absurd (hrb ky hmem) (lt_asymm hlt)
        cases l with
        | none => simp [alookup_cons, hk, hr1]
        | some ln =>
          rw [pairsO_some]
          cases hv : alookup ln.pairs ky with
          | some w => simp [ihl ln rfl hlo ky, hv]
          | none => simp [ihl ln rfl hlo ky, hv, alookup_cons, hk, hr1]
      · have hlt : k < ky := not_le.mp hle
        rw [if_neg hle]
        have hl1 : alookup (pairsO l) ky = none := by
          rw [alookup_eq_none_iff, ← keysO_eq_map_fst]
          intro hmem
          exact absurd (hlb ky hmem) (lt_asymm hlt)
        rw [hl1, alookup_cons, if_neg hk]
        cases r with
        | none => simp
        | some rn => exact ihr rn rfl hro ky

/-- On an ordered tree, a key outside the key set is not found. -/
theorem find_at_none [LinearOrder K] (n : Node K V) (ho : n.ordered = true)
    (ky : K) (hk : ky ∉ n.keys) : n.find_at ky = none := by
  have h1 : alookup n.pairs ky = none := by
    rw [alookup_eq_none_iff, ← keys_eq_map_fst]
    exact hk
  have h2 := find_at_value n ho ky
  rw [h1] at h2
  cases hv : n.find_at ky with
  | none => rfl
  | some m => rw [hv] at h2; simp at h2

end Node

end BinarTree

namespace BinarTree

namespace Node

variable {K V : Type}

theorem insert_at_false [LinearOrder K] (n : Node K V) :
    ∀ ky vl, (n.insert_at ky vl).2 = false → (n.insert_at ky vl).1 = n := by
  induction n using indOn with
  | h k v l r ihl ihr =>
    intro ky vl hf
    rw [insert_at_mk] at hf ⊢
    by_cases hk : ky = k
    · rw [if_pos hk] at hf ⊢
    · rw [if_neg hk] at hf ⊢
      by_cases hlt : ky < k
      · rw [if_pos hlt] at hf ⊢
        cases l with
        | none => simp at hf
        | some ln =>
          replace hf : (ln.insert_at ky vl).2 = false := hf
          show Node.mk k v (some (ln.insert_at ky vl).1) r = Node.mk k v (some ln) r
          rw [ihl ln rfl ky vl hf]
      · rw [if_neg hlt] at hf ⊢
        cases r with
        | none => simp at hf
        | some rn =>
          replace hf : (rn.insert_at ky vl).2 = false := hf
          show Node.mk k v l (some (rn.insert_at ky vl).1) = Node.mk k v l (some rn)
          rw [ihr rn rfl ky vl hf]

theorem insert_at_false_mem [LinearOrder K] (n : Node K V) :
    ∀ ky vl, (n.insert_at ky vl).2 = false → ky ∈ n.keys := by
  induction n using indOn with
  | h k v l r ihl ihr =>
    intro ky vl hf
    rw [insert_at_mk] at hf
    rw [keys_mk]
    by_cases hk : ky = k
    · rw [hk]
      simp
    · rw [if_neg hk] at hf
      by_cases hlt : ky < k
      · rw [if_pos hlt] at hf
        cases l with
        | none => simp at hf
        | some ln =>
          replace hf : (ln.insert_at ky vl).2 = false := hf
          exact List.mem_append.mpr (Or.inl (ihl ln rfl ky vl hf))
      · rw [if_neg hlt] at hf
        cases r with
        | none => simp at hf
        | some rn =>
          replace hf : (rn.insert_at ky vl).2 = false := hf
          exact List.mem_append.mpr
            (Or.inr (List.mem_cons_of_mem k (ihr rn rfl ky vl hf)))

theorem insert_at_pairs_perm [LinearOrder K] (n : Node K V) :
    ∀ ky vl, (n.insert_at ky vl).2 = true →
      ((n.insert_at ky vl).1).pairs.Perm ((ky, vl) :: n.pairs) := by
  induction n using indOn with
  | h k v l r ihl ihr =>
    intro ky vl ht
    rw [insert_at_mk] at ht ⊢
    by_cases hk : ky = k
    · rw [if_pos hk] at ht
      simp at ht
    · rw [if_neg hk] at ht ⊢
      by_cases hlt : ky < k
      · rw [if_pos hlt] at ht ⊢
        cases l with
        | none =>
          show (Node.mk k v (some (Node.mk ky vl none none)) r).pairs.Perm
            ((ky, vl) :: (Node.mk k v none r).pairs)
          rw [pairs_mk, pairs_mk, pairsO_some, pairs_mk]
          simp
        | some ln =>
          replace ht : (ln.insert_at ky vl).2 = true := ht
          show (Node.mk k v (some (ln.insert_at ky vl).1) r).pairs.Perm
            ((ky, vl) :: (Node.mk k v (some ln) r).pairs)
          rw [pairs_mk, pairs_mk, pairsO_some, pairsO_some]
          exact (ihl ln rfl ky vl ht).append_right ((k, v) :: pairsO r)
      · rw [if_neg hlt] at ht ⊢
        cases r with
        | none =>
          show (Node.mk k v l (some (Node.mk ky vl none none))).pairs.Perm
            ((ky, vl) :: (Node.mk k v l none).pairs)
          rw [pairs_mk, pairs_mk, pairsO_some, pairs_mk]
          exact List.Perm.trans
            (List.Perm.append_left (pairsO l) (List.Perm.swap (ky, vl) (k, v) []))
            List.perm_middle
        | some rn =>
          replace ht : (rn.insert_at ky vl).2 = true := ht
          show (Node.mk k v l (some (rn.insert_at ky vl).1)).pairs.Perm
            ((ky, vl) :: (Node.mk k v l (some rn)).pairs)
          rw [pairs_mk, pairs_mk, pairsO_some, pairsO_some]
          have hp := ihr rn rfl ky vl ht
          exact List.Perm.trans
            (List.Perm.append_left (pairsO l) (List.Perm.cons (k, v) hp))
            (List.Perm.trans
              (List.Perm.append_left (pairsO l) (List.Perm.swap (ky, vl) (k, v) rn.pairs))
              List.perm_middle)

theorem insert_at_keys_perm [LinearOrder K] (n : Node K V) (ky : K) (vl : V)
    (ht : (n.insert_at ky vl).2 = true) :
    ((n.insert_at ky vl).1).keys.Perm (ky :: n.keys) := by
  have h2 := (insert_at_pairs_perm n ky vl ht).map Prod.fst
  rw [← keys_eq_map_fst, List.map_cons, ← keys_eq_map_fst] at h2
  exact h2

theorem insert_at_keys_sub [LinearOrder K] (n : Node K V) (ky : K) (vl : V) (x : K)
    (hx : x ∈ ((n.insert_at ky vl).1).keys) : x = ky ∨ x ∈ n.keys := by
  cases hb : (n.insert_at ky vl).2 with
  | false =>
    rw [insert_at_false n ky vl hb] at hx
    exact Or.inr hx
  | true =>
    have h2 := (insert_at_keys_perm n ky vl hb).mem_iff.mp hx
    simpa using h2

end Node

end BinarTree

namespace BinarTree

namespace Node

variable {K V : Type}

theorem insert_at_ordered [LinearOrder K] (n : Node K V) :
    ∀ ky vl, n.ordered = true → ((n.insert_at ky vl).1).ordered = true := by
  induction n using indOn with
  | h k v l r ihl ihr =>
    intro ky vl ho
    rw [ordered_mk] at ho
    obtain ⟨hlb, hrb, hlo, hro⟩ := ho
    rw [insert_at_mk]
    by_cases hk : ky = k
    · rw [if_pos hk]
      show (Node.mk k v l r).ordered = true
      rw [ordered_mk]
      exact ⟨hlb, hrb, hlo, hro⟩
    · rw [if_neg hk]
      by_cases hlt : ky < k
      · rw [if_pos hlt]
        cases l with
        | none =>
          show (Node.mk k v (some (Node.mk ky vl none none)) r).ordered = true
          rw [ordered_mk]
          refine ⟨?_, hrb, ?_, hro⟩
          · intro x hx
            rw [keysO_some, keys_mk] at hx
            simp at hx
            rw [hx]
            exact hlt
          · rw [orderedO_some, ordered_mk]
            refine ⟨?_, ?_, rfl, rfl⟩ <;> simp
        | some ln =>
          show (Node.mk k v (some (ln.insert_at ky vl).1) r).ordered = true
          rw [ordered_mk]
          refine ⟨?_, hrb, ?_, hro⟩
          · intro x hx
            rw [keysO_some] at hx
            rcases insert_at_keys_sub ln ky vl x hx with h | h
            · rw [h]
              exact hlt
            · exact hlb x h
          · rw [orderedO_some]
            exact ihl ln rfl ky vl hlo
      · rw [if_neg hlt]
        have hgt : k < ky := lt_of_le_of_ne (not_lt.mp hlt) (fun he => hk he.symm)
        cases r with
        | none =>
          show (Node.mk k v l (some (Node.mk ky vl none none))).ordered = true
          rw [ordered_mk]
          refine ⟨hlb, ?_, hlo, ?_⟩
          · intro x hx
            rw [keysO_some, keys_mk] at hx
            simp at hx
            rw [hx]
            exact hgt
          · rw [orderedO_some, ordered_mk]
            refine ⟨?_, ?_, rfl, rfl⟩ <;> simp
        | some rn =>
          show (Node.mk k v l (some (rn.insert_at ky vl).1)).ordered = true
          rw [ordered_mk]
          refine ⟨hlb, ?_, hlo, ?_⟩
          · intro x hx
            rw [keysO_some] at hx
            rcases insert_at_keys_sub rn ky vl x hx with h | h
            · rw [h]
              exact hgt
            · exact hrb x h
          · rw [orderedO_some]
            exact ihr rn rfl ky vl hro

theorem insert_at_mem_false [LinearOrder K] (n : Node K V) :
    ∀ ky vl, n.ordered = true → ky ∈ n.keys → n.insert_at ky vl = (n, false) := by
  induction n using indOn with
  | h k v l r ihl ihr =>
    intro ky vl ho hm
    rw [ordered_mk] at ho
    obtain ⟨hlb, hrb, hlo, hro⟩ := ho
    rw [keys_mk] at hm
    rw [insert_at_mk]
    by_cases hk : ky = k
    · rw [if_pos hk]
    · rw [if_neg hk]
      rcases List.mem_append.mp hm with hml | hmr
      · have hlt : ky < k := hlb ky hml
        rw [if_pos hlt]
        cases l with
        | none => simp [keysO] at hml
        | some ln =>
          have heq := ihl ln rfl ky vl hlo hml
          show (Node.mk k v (some (ln.insert_at ky vl).1) r, (ln.insert_at ky vl).2)
            = (Node.mk k v (some ln) r, false)
          rw [heq]
      · rcases List.mem_cons.mp hmr with hke | hmr2
        · exact absurd hke hk
        · have hgt : k < ky := hrb ky hmr2
          have hnlt : ¬ ky < k := lt_asymm hgt
          rw [if_neg hnlt]
          cases r with
          | none => simp [keysO] at hmr2
          | some rn =>
            have heq := ihr rn rfl ky vl hro hmr2
            show (Node.mk k v l (some (rn.insert_at ky vl).1), (rn.insert_at ky vl).2)
              = (Node.mk k v l (some rn), false)
            rw [heq]

end Node

end BinarTree

namespace BinarTree

namespace Node

variable {K V : Type}

theorem find_at_self [LinearOrder K] (n : Node K V) (ky : K) (h : n.key = ky) :
    n.find_at ky = some n := by
  cases n with
  | mk k v l r =>
    rw [find_at_mk, if_pos]
    simpa using h

theorem detach_at_not_mem [LinearOrder K] (n : Node K V) :
    ∀ ky, ky ∉ n.keys → n.detach_at ky = (n, none) := by
  induction n using indOn with
  | h k v l r ihl ihr =>
    intro ky hm
    rw [keys_mk] at hm
    simp only [List.mem_append, List.mem_cons, not_or] at hm
    obtain ⟨hl, hk, hr⟩ := hm
    have hlkey : ∀ ln, l = some ln → ¬ ln.key = ky := by
      intro ln heq heq2
      apply hl
      rw [heq, keysO_some, ← heq2]
      exact key_mem_keys ln
    have hrkey : ∀ rn, r = some rn → ¬ rn.key = ky := by
      intro rn heq heq2
      apply hr
      rw [heq, keysO_some, ← heq2]
      exact key_mem_keys rn
    cases l with
    | none =>
      cases r with
      | none => simp only [detach_at]
      | some rn =>
        simp only [detach_at]
        rw [if_neg (hrkey rn rfl)]
        by_cases hle : ky ≤ k
        · rw [if_pos hle]
        · rw [if_neg hle, ihr rn rfl ky (by simpa using hr)]
    | some ln =>
      cases r with
      | none =>
        simp only [detach_at]
        rw [if_neg (hlkey ln rfl)]
        by_cases hle : ky ≤ k
        · rw [if_pos hle, ihl ln rfl ky (by simpa using hl)]
        · rw [if_neg hle]
      | some rn =>
        simp only [detach_at]
        rw [if_neg (hlkey ln rfl), if_neg (hrkey rn rfl)]
        by_cases hle : ky ≤ k
        · rw [if_pos hle, ihl ln rfl ky (by simpa using hl)]
        · rw [if_neg hle, ihr rn rfl ky (by simpa using hr)]


theorem detach_at_pairs_perm [LinearOrder K] (n : Node K V) :
    ∀ ky, n.pairs.Perm ((n.detach_at ky).1.pairs ++ pairsO (n.detach_at ky).2) := by
  induction n using indOn with
  | h k v l r ihl ihr =>
    intro ky
    cases l with
    | none =>
      cases r with
      | none =>
        simp only [detach_at, pairs_mk, pairsO_none, List.append_nil]
        exact List.Perm.refl _
      | some rn =>
        simp only [detach_at]
        by_cases h2 : rn.key = ky
        · rw [if_pos h2]
          simp only [pairs_mk, pairsO_some, pairsO_none, List.nil_append,
            List.cons_append, List.append_nil]
          exact List.Perm.refl _
        · rw [if_neg h2]
          by_cases hle : ky ≤ k
          · rw [if_pos hle]
            simp only [pairs_mk, pairsO_some, pairsO_none, List.nil_append,
              List.append_nil]
            exact List.Perm.refl _
          · rw [if_neg hle]
            simp only [pairs_mk, pairsO_some, pairsO_none, List.nil_append,
              List.cons_append, List.append_assoc]
            exact List.Perm.cons (k, v) (ihr rn rfl ky)
    | some ln =>
      cases r with
      | none =>
        simp only [detach_at]
        by_cases h1 : ln.key = ky
        · rw [if_pos h1]
          simp only [pairs_mk, pairsO_some, pairsO_none, List.nil_append,
            List.cons_append, List.append_nil]
          exact List.perm_append_comm
        · rw [if_neg h1]
          by_cases hle : ky ≤ k
          · rw [if_pos hle]
            simp only [pairs_mk, pairsO_some, pairsO_none, List.nil_append,
              List.cons_append, List.append_assoc, List.append_nil]
            refine ((ihl ln rfl ky).append_right ((k, v) :: [])).trans ?_
            rw [List.append_assoc]
            exact List.Perm.append_left _ List.perm_append_comm
          · rw [if_neg hle]
            simp only [pairs_mk, pairsO_some, pairsO_none, List.append_nil]
            exact List.Perm.refl _
      | some rn =>
        simp only [detach_at]
        by_cases h1 : ln.key = ky
        · rw [if_pos h1]
          simp only [pairs_mk, pairsO_some, pairsO_none, List.nil_append,
            List.cons_append, List.append_nil]
          exact List.perm_append_comm
        · rw [if_neg h1]
          by_cases h2 : rn.key = ky
          · rw [if_pos h2]
            simp only [pairs_mk, pairsO_some, pairsO_none, List.nil_append,
              List.cons_append, List.append_assoc, List.append_nil]
            exact List.Perm.refl _
          · rw [if_neg h2]
            by_cases hle : ky ≤ k
            · rw [if_pos hle]
              simp only [pairs_mk, pairsO_some, pairsO_none, List.nil_append,
                List.cons_append, List.append_assoc]
              refine ((ihl ln rfl ky).append_right ((k, v) :: rn.pairs)).trans ?_
              rw [List.append_assoc]
              exact List.Perm.append_left _ List.perm_append_comm
            · rw [if_neg hle]
              simp only [pairs_mk, pairsO_some, pairsO_none, List.nil_append,
                List.cons_append, List.append_assoc]
              exact List.Perm.append_left ln.pairs
                (List.Perm.cons (k, v) (ihr rn rfl ky))

end Node

end BinarTree

namespace BinarTree

namespace Node

variable {K V : Type}

theorem detach_at_keys_perm [LinearOrder K] (n : Node K V) (ky : K) :
    n.keys.Perm (((n.detach_at ky).1).keys ++ keysO ((n.detach_at ky).2)) := by
  have h := (detach_at_pairs_perm n ky).map Prod.fst
  rw [List.map_append] at h
  simp only [← keys_eq_map_fst, ← keysO_eq_map_fst] at h
  exact h

theorem detach_at_keys_sub [LinearOrder K] (n : Node K V) (ky : K) (x : K)
    (hx : x ∈ ((n.detach_at ky).1).keys) : x ∈ n.keys :=
  (detach_at_keys_perm n ky).mem_iff.mpr (List.mem_append.mpr (Or.inl hx))

theorem detach_at_detached_sub [LinearOrder K] (n : Node K V) (ky : K) (x : K)
    (hx : x ∈ keysO ((n.detach_at ky).2)) : x ∈ n.keys :=
  (detach_at_keys_perm n ky).mem_iff.mpr (List.mem_append.mpr (Or.inr hx))

theorem detach_at_ordered [LinearOrder K] (n : Node K V) :
    ∀ ky, n.ordered = true → ((n.detach_at ky).1).ordered = true := by
  induction n using indOn with
  | h k v l r ihl ihr =>
    intro ky ho
    rw [ordered_mk] at ho
    obtain ⟨hlb, hrb, hlo, hro⟩ := ho
    cases l with
    | none =>
      cases r with
      | none =>
        simp only [detach_at]
        show (Node.mk k v none none).ordered = true
        rw [ordered_mk]
        exact ⟨hlb, hrb, hlo, hro⟩
      | some rn =>
        simp only [detach_at]
        by_cases h2 : rn.key = ky
        · rw [if_pos h2]
          show (Node.mk k v none none).ordered = true
          rw [ordered_mk]
          exact ⟨by simp, by simp, rfl, rfl⟩
        · rw [if_neg h2]
          by_cases hle : ky ≤ k
          · rw [if_pos hle]
            show (Node.mk k v none (some rn)).ordered = true
            rw [ordered_mk]
            exact ⟨hlb, hrb, hlo, hro⟩
          · rw [if_neg hle]
            show (Node.mk k v none (some ((rn.detach_at ky).1))).ordered = true
            rw [ordered_mk]
            refine ⟨by simp, ?_, rfl, ?_⟩
            · intro x hx
              exact hrb x (detach_at_keys_sub rn ky x hx)
            · exact ihr rn rfl ky hro
    | some ln =>
      cases r with
      | none =>
        simp only [detach_at]
        by_cases h1 : ln.key = ky
        · rw [if_pos h1]
          show (Node.mk k v none none).ordered = true
          rw [ordered_mk]
          exact ⟨by simp, by simp, rfl, rfl⟩
        · rw [if_neg h1]
          by_cases hle : ky ≤ k
          · rw [if_pos hle]
            show (Node.mk k v (some ((ln.detach_at ky).1)) none).ordered = true
            rw [ordered_mk]
            refine ⟨?_, by simp, ?_, rfl⟩
            · intro x hx
              exact hlb x (detach_at_keys_sub ln ky x hx)
            · exact ihl ln rfl ky hlo
          · rw [if_neg hle]
            show (Node.mk k v (some ln) none).ordered = true
            rw [ordered_mk]
            exact ⟨hlb, hrb, hlo, hro⟩
      | some rn =>
        simp only [detach_at]
        by_cases h1 : ln.key = ky
        · rw [if_pos h1]
          show (Node.mk k v none (some rn)).ordered = true
          rw [ordered_mk]
          exact ⟨by simp, hrb, rfl, hro⟩
        · rw [if_neg h1]
          by_cases h2 : rn.key = ky
          · rw [if_pos h2]
            show (Node.mk k v (some ln) none).ordered = true
            rw [ordered_mk]
            exact ⟨hlb, by simp, hlo, rfl⟩
          · rw [if_neg h2]
            by_cases hle : ky ≤ k
            · rw [if_pos hle]
              show (Node.mk k v (some ((ln.detach_at ky).1)) (some rn)).ordered = true
              rw [ordered_mk]
              refine ⟨?_, hrb, ?_, hro⟩
              · intro x hx
                exact hlb x (detach_at_keys_sub ln ky x hx)
              · exact ihl ln rfl ky hlo
            · rw [if_neg hle]
              show (Node.mk k v (some ln) (some ((rn.detach_at ky).1))).ordered = true
              rw [ordered_mk]
              refine ⟨hlb, ?_, hlo, ?_⟩
              · intro x hx
                exact hrb x (detach_at_keys_sub rn ky x hx)
              · exact ihr rn rfl ky hro

theorem detach_at_find [LinearOrder K] (n : Node K V) :
    ∀ ky, n.ordered = true → ¬ ky = n.key → (n.detach_at ky).2 = n.find_at ky := by
  induction n using indOn with
  | h k v l r ihl ihr =>
    intro ky ho hk
    rw [ordered_mk] at ho
    obtain ⟨hlb, hrb, hlo, hro⟩ := ho
    replace hk : ¬ ky = k := by simpa using hk
    rw [find_at_mk, if_neg (fun h => hk h.symm)]
    cases l with
    | none =>
      cases r with
      | none =>
        simp only [detach_at]
        by_cases hle : ky ≤ k
        · rw [if_pos hle]
        · rw [if_neg hle]
      | some rn =>
        simp only [detach_at]
        by_cases h2 : rn.key = ky
        · rw [if_pos h2]
          have hgt : k < ky := hrb ky (h2 ▸ key_mem_keys rn)
          rw [if_neg (not_le.mpr hgt)]
          show some rn = rn.find_at ky
          rw [find_at_self rn ky h2]
        · rw [if_neg h2]
          by_cases hle : ky ≤ k
          · rw [if_pos hle, if_pos hle]
          · rw [if_neg hle, if_neg hle]
            show (rn.detach_at ky).2 = rn.find_at ky
            exact ihr rn rfl ky hro (fun he => h2 he.symm)
    | some ln =>
      cases r with
      | none =>
        simp only [detach_at]
        by_cases h1 : ln.key = ky
        · rw [if_pos h1]
          have hlt : ky < k := hlb ky (h1 ▸ key_mem_keys ln)
          rw [if_pos (le_of_lt hlt)]
          show some ln = ln.find_at ky
          rw [find_at_self ln ky h1]
        · rw [if_neg h1]
          by_cases hle : ky ≤ k
          · rw [if_pos hle, if_pos hle]
            show (ln.detach_at ky).2 = ln.find_at ky
            exact ihl ln rfl ky hlo (fun he => h1 he.symm)
          · rw [if_neg hle, if_neg hle]
      | some rn =>
        simp only [detach_at]
        by_cases h1 : ln.key = ky
        · rw [if_pos h1]
          have hlt : ky < k := hlb ky (h1 ▸ key_mem_keys ln)
          rw [if_pos (le_of_lt hlt)]
          show some ln = ln.find_at ky
          rw [find_at_self ln ky h1]
        · rw [if_neg h1]
          by_cases h2 : rn.key = ky
          · rw [if_pos h2]
            have hgt : k < ky := hrb ky (h2 ▸ key_mem_keys rn)
            rw [if_neg (not_le.mpr hgt)]
            show some rn = rn.find_at ky
            rw [find_at_self rn ky h2]
          · rw [if_neg h2]
            by_cases hle : ky ≤ k
            · rw [if_pos hle, if_pos hle]
              show (ln.detach_at ky).2 = ln.find_at ky
              exact ihl ln rfl ky hlo (fun he => h1 he.symm)
            · rw [if_neg hle, if_neg hle]
              show (rn.detach_at ky).2 = rn.find_at ky
              exact ihr rn rfl ky hro (fun he => h2 he.symm)

end Node

end BinarTree

namespace BinarTree

namespace Node

variable {K V : Type}

theorem insert_at_lookup [LinearOrder K] (n : Node K V) (ho : n.ordered = true)
    (ky : K) (vl : V) (k' : K) :
    (((n.insert_at ky vl).1).find_at k').map value
      = if k' = ky ∧ ky ∉ n.keys then some vl else (n.find_at k').map value := by
  cases hb : (n.insert_at ky vl).2 with
  | false =>
    rw [insert_at_false n ky vl hb]
    have hmem : ky ∈ n.keys := insert_at_false_mem n ky vl hb
    rw [if_neg (fun h => h.2 hmem)]
  | true =>
    have hnmem : ky ∉ n.keys := by
      intro hmem
      have heq := insert_at_mem_false n ky vl ho hmem
      rw [heq] at hb
      simp at hb
    have ho2 : ((n.insert_at ky vl).1).ordered = true := insert_at_ordered n ky vl ho
    rw [find_at_value _ ho2 k']
    have hperm := insert_at_pairs_perm n ky vl hb
    have hnd : ((((n.insert_at ky vl).1).pairs).map Prod.fst).Nodup := by
      rw [← keys_eq_map_fst]
      exact nodup_keys _ ho2
    rw [alookup_perm hperm hnd k', alookup_cons, find_at_value n ho k']
    by_cases hkk : ky = k'
    · rw [if_pos hkk, if_pos ⟨hkk.symm, hnmem⟩]
    · rw [if_neg hkk, if_neg (fun h => hkk h.1.symm)]

end Node

namespace Tree

variable {K V : Type}

theorem ordered_new [LinearOrder K] : (new : Tree K V).ordered = true := rfl

theorem keys_new : (new : Tree K V).keys = [] := rfl

theorem find_new [LinearOrder K] (ky : K) : (new : Tree K V).find ky = none := rfl

theorem keys_some (n : Node K V) : (Tree.mk (some n)).keys = n.keys := rfl

theorem insert_ordered [LinearOrder K] (t : Tree K V) (ky : K) (vl : V)
    (ho : t.ordered = true) : ((t.insert ky vl).1).ordered = true := by
  obtain ⟨root⟩ := t
  cases root with
  | none =>
    show (Node.mk ky vl none none).ordered = true
    rw [Node.ordered_mk]
    exact ⟨by simp, by simp, rfl, rfl⟩
  | some n =>
    show ((n.insert_at ky vl).1).ordered = true
    exact Node.insert_at_ordered n ky vl ho

theorem keys_nodup [LinearOrder K] (t : Tree K V) (ho : t.ordered = true) :
    t.keys.Nodup := by
  obtain ⟨root⟩ := t
  cases root with
  | none => exact List.nodup_nil
  | some n => exact Node.nodup_keys n ho

theorem lookupValue_eq_alookup [LinearOrder K] (t : Tree K V) (ho : t.ordered = true)
    (ky : K) : lookupValue t ky = alookup t.pairs ky := by
  obtain ⟨root⟩ := t
  cases root with
  | none => rfl
  | some n => exact Node.find_at_value n ho ky

theorem lookupValue_none_iff [LinearOrder K] (t : Tree K V) (ho : t.ordered = true)
    (ky : K) : lookupValue t ky = none ↔ ky ∉ t.keys := by
  rw [lookupValue_eq_alookup t ho ky, alookup_eq_none_iff]
  obtain ⟨root⟩ := t
  cases root with
  | none => simp [keys, pairs, Node.keysO, Node.pairsO]
  | some n =>
    show ky ∉ n.pairs.map Prod.fst ↔ ky ∉ n.keys
    rw [← Node.keys_eq_map_fst]

theorem find_none_of_not_mem [LinearOrder K] (t : Tree K V) (ho : t.ordered = true)
    (ky : K) (hm : ky ∉ t.keys) : t.find ky = none := by
  obtain ⟨root⟩ := t
  cases root with
  | none => rfl
  | some n => exact Node.find_at_none n ho ky hm

theorem find_key [LinearOrder K] (t : Tree K V) (ky : K) (d : Node K V)
    (h : t.find ky = some d) : d.key = ky := by
  obtain ⟨root⟩ := t
  cases root with
  | none => exact absurd h (by simp [find])
  | some n => exact Node.find_at_key n ky d h

theorem lookupValue_insert [LinearOrder K] (t : Tree K V) (ho : t.ordered = true)
    (ky : K) (vl : V) (k' : K) :
    lookupValue ((t.insert ky vl).1) k'
      = if k' = ky ∧ ky ∉ t.keys then some vl else lookupValue t k' := by
  obtain ⟨root⟩ := t
  cases root with
  | none =>
    show ((Node.mk ky vl none none).find_at k').map Node.value
      = if k' = ky ∧ ky ∉ (Tree.mk (none : Option (Node K V))).keys
        then some vl else none
    rw [Node.find_at_mk]
    by_cases hk : ky = k'
    · rw [if_pos hk, if_pos ⟨hk.symm, by simp [keys, Node.keysO]⟩]
      rfl
    · rw [if_neg hk]
      have hrhs : ¬ (k' = ky ∧ ky ∉ (Tree.mk (none : Option (Node K V))).keys) :=
        fun h => hk h.1.symm
      rw [if_neg hrhs]
      by_cases hle : k' ≤ ky
      · rw [if_pos hle]
        rfl
      · rw [if_neg hle]
        rfl
  | some n =>
    exact Node.insert_at_lookup n ho ky vl k'

theorem insert_true_of_not_mem [LinearOrder K] (t : Tree K V) (ky : K) (vl : V)
    (hm : ky ∉ t.keys) : ((t.insert ky vl).2) = true := by
  obtain ⟨root⟩ := t
  cases root with
  | none => rfl
  | some n =>
    show (n.insert_at ky vl).2 = true
    cases hb : (n.insert_at ky vl).2 with
    | true => rfl
    | false => exact absurd (Node.insert_at_false_mem n ky vl hb) hm

end Tree

end BinarTree

namespace BinarTree

namespace Tree

variable {K V : Type}

theorem find_some [LinearOrder K] (n : Node K V) (ky : K) :
    (Tree.mk (some n)).find ky = n.find_at ky := rfl

theorem detach_some [LinearOrder K] (n : Node K V) (ky : K) :
    (Tree.mk (some n)).detach ky
      = if n.key = ky then ((⟨none⟩ : Tree K V), some n)
        else (⟨some ((n.detach_at ky).1)⟩, (n.detach_at ky).2) := rfl

theorem keys_eq_pairs_map (t : Tree K V) : t.keys = t.pairs.map Prod.fst := by
  obtain ⟨root⟩ := t
  cases root with
  | none => rfl
  | some n => exact Node.keys_eq_map_fst n

theorem detach_snd_eq_find [LinearOrder K] (t : Tree K V) (ho : t.ordered = true)
    (ky : K) : (t.detach ky).2 = t.find ky := by
  obtain ⟨root⟩ := t
  cases root with
  | none => rfl
  | some n =>
    rw [detach_some, find_some]
    by_cases hk : n.key = ky
    · rw [if_pos hk, Node.find_at_self n ky hk]
    · rw [if_neg hk]
      exact Node.detach_at_find n ky ho (fun he => hk he.symm)

theorem detach_ordered [LinearOrder K] (t : Tree K V) (ho : t.ordered = true)
    (ky : K) : ((t.detach ky).1).ordered = true := by
  obtain ⟨root⟩ := t
  cases root with
  | none => rfl
  | some n =>
    rw [detach_some]
    by_cases hk : n.key = ky
    · rw [if_pos hk]
      rfl
    · rw [if_neg hk]
      exact Node.detach_at_ordered n ky ho

theorem detach_keys_perm [LinearOrder K] (t : Tree K V) (ky : K) :
    t.keys.Perm (((t.detach ky).1).keys ++ Node.keysO ((t.detach ky).2)) := by
  obtain ⟨root⟩ := t
  cases root with
  | none => exact List.Perm.refl _
  | some n =>
    rw [detach_some]
    by_cases hk : n.key = ky
    · rw [if_pos hk]
      show n.keys.Perm ([] ++ n.keys)
      rw [List.nil_append]
    · rw [if_neg hk]
      show n.keys.Perm (((n.detach_at ky).1).keys ++ Node.keysO ((n.detach_at ky).2))
      exact Node.detach_at_keys_perm n ky

theorem detach_pairs_perm [LinearOrder K] (t : Tree K V) (ky : K) :
    t.pairs.Perm (((t.detach ky).1).pairs ++ Node.pairsO ((t.detach ky).2)) := by
  obtain ⟨root⟩ := t
  cases root with
  | none => exact List.Perm.refl _
  | some n =>
    rw [detach_some]
    by_cases hk : n.key = ky
    · rw [if_pos hk]
      show n.pairs.Perm ([] ++ n.pairs)
      rw [List.nil_append]
    · rw [if_neg hk]
      show n.pairs.Perm (((n.detach_at ky).1).pairs ++ Node.pairsO ((n.detach_at ky).2))
      exact Node.detach_at_pairs_perm n ky

theorem detach_rest_disjoint [LinearOrder K] (t : Tree K V) (ho : t.ordered = true)
    (ky x : K) (h1 : x ∈ Node.keysO ((t.detach ky).2)) :
    x ∉ ((t.detach ky).1).keys := by
  have hperm := detach_keys_perm t ky
  have hnd : ((((t.detach ky).1).keys) ++ Node.keysO ((t.detach ky).2)).Nodup :=
    hperm.nodup_iff.mp (keys_nodup t ho)
  intro h2
  exact (List.nodup_append.mp hnd).2.2 h2 h1

theorem detach_lookup_outside [LinearOrder K] (t : Tree K V) (ho : t.ordered = true)
    (ky x : K) (hx : x ∉ Node.keysO ((t.detach ky).2)) :
    lookupValue ((t.detach ky).1) x = lookupValue t x := by
  have ho2 := detach_ordered t ho ky
  rw [lookupValue_eq_alookup _ ho2 x, lookupValue_eq_alookup t ho x]
  have hperm := detach_pairs_perm t ky
  have hnd : (t.pairs.map Prod.fst).Nodup := by
    rw [← keys_eq_pairs_map]
    exact keys_nodup t ho
  rw [alookup_perm hperm hnd x, alookup_append]
  have hdn : alookup (Node.pairsO ((t.detach ky).2)) x = none := by
    rw [alookup_eq_none_iff, ← Node.keysO_eq_map_fst]
    exact hx
  rw [hdn]
  cases hv : alookup ((((t.detach ky).1).pairs)) x with
  | some w => rfl
  | none => rfl

end Tree

theorem insertList_ordered [LinearOrder K] {V : Type} (l : List (K × V)) :
    ∀ t : Tree K V, t.ordered = true → (insertList t l).ordered = true := by
  induction l with
  | nil =>
    intro t ht
    exact ht
  | cons p rest ih =>
    intro t ht
    exact ih (t.insert p.1 p.2).1 (Tree.insert_ordered t p.1 p.2 ht)

theorem insertList_lookup [LinearOrder K] {V : Type} (l : List (K × V)) :
    ∀ t : Tree K V, t.ordered = true → ∀ ky,
      lookupValue (insertList t l) ky
        = match lookupValue t ky with
          | some w => some w
          | none => alookup l ky := by
  induction l with
  | nil =>
    intro t ht ky
    show lookupValue t ky
      = match lookupValue t ky with
        | some w => some w
        | none => alookup ([] : List (K × V)) ky
    cases lookupValue t ky with
    | some w => rfl
    | none => rfl
  | cons p rest ih =>
    intro t ht ky
    have step : insertList t (p :: rest) = insertList (t.insert p.1 p.2).1 rest := rfl
    rw [step, ih (t.insert p.1 p.2).1 (Tree.insert_ordered t p.1 p.2 ht) ky,
      Tree.lookupValue_insert t ht p.1 p.2 ky, alookup_cons]
    by_cases h1 : ky = p.1
    · by_cases h2 : p.1 ∈ t.keys
      · rw [if_neg (fun hc => hc.2 h2)]
        have hne : lookupValue t ky ≠ none :=
          fun hn => ((Tree.lookupValue_none_iff t ht ky).mp hn) (h1 ▸ h2)
        cases hv : lookupValue t ky with
        | none => exact absurd hv hne
        | some w => rfl
      · rw [if_pos ⟨h1, h2⟩]
        have hnone : lookupValue t ky = none :=
          (Tree.lookupValue_none_iff t ht ky).mpr (h1 ▸ h2)
        rw [hnone, if_pos h1.symm]
    · rw [if_neg (fun hc => h1 hc.1), if_neg (fun hc => h1 hc.symm)]

end BinarTree

namespace BinarTree

namespace Tree

variable {K V : Type}

theorem insert_some [LinearOrder K] (n : Node K V) (ky : K) (vl : V) :
    (Tree.mk (some n)).insert ky vl
      = (⟨some ((n.insert_at ky vl).1)⟩, (n.insert_at ky vl).2) := rfl

end Tree

/-! ### The claims -/

/-- C1 (counterexample): in the demonstration sequence of `main`
(inserting [5, 3, 65, 123, 6, 11, 3, 1, 5, 42] with each value equal to
its key), the node with key 6 is not a leaf: its subtree also holds 11
and 42.  Hence after `detach 6`, `find 11` is absent — contradicting the
claim that `find 11` still returns a node with value 11. -/
theorem c1_demo_counterexample :
    ¬ (((((runInserts (Tree.new : Tree Int Int)
          [5, 3, 65, 123, 6, 11, 3, 1, 5, 42]).1.detach 6).1.find 11).map
        Node.value) = some 11) := by
  decide

/-- C1 (amended): the demonstration sequence yields exactly 8 nodes, the
insert results being true except for the duplicate inserts of 3 and 5;
`find 6` returns a node with value 6; after `detach 6`, `find 6` is
absent and `find 11` is absent as well, because 11 lay inside the
detached subtree rooted at 6. -/
theorem c1_demo_amended :
    (runInserts (Tree.new : Tree Int Int) [5, 3, 65, 123, 6, 11, 3, 1, 5, 42]).1.size = 8
    ∧ (runInserts (Tree.new : Tree Int Int) [5, 3, 65, 123, 6, 11, 3, 1, 5, 42]).2
        = [true, true, true, true, true, true, false, true, false, true]
    ∧ (((runInserts (Tree.new : Tree Int Int)
        [5, 3, 65, 123, 6, 11, 3, 1, 5, 42]).1.find 6).map Node.value = some 6)
    ∧ ((((runInserts (Tree.new : Tree Int Int)
        [5, 3, 65, 123, 6, 11, 3, 1, 5, 42]).1.detach 6).1.find 6).isSome = false)
    ∧ ((((runInserts (Tree.new : Tree Int Int)
        [5, 3, 65, 123, 6, 11, 3, 1, 5, 42]).1.detach 6).1.find 11).isSome = false) := by
  refine ⟨?_, ?_, ?_, ?_, ?_⟩ <;> decide

/-- C2: every tree built by a sequence of inserts starting from the empty
tree satisfies the per-node ordering invariant `Tree.ordered` (all keys in
a node's left subtree are strictly smaller than its key, all keys in its
right subtree strictly greater), and no key occurs twice.  Since the list
of inserts is universally quantified, the invariant holds after every
insert of any sequence. -/
theorem c2_insert_invariant [LinearOrder K] {V : Type} (l : List (K × V)) :
    (insertList Tree.new l).ordered = true
      ∧ ((insertList Tree.new l).keys).Nodup := by
  have ho := insertList_ordered l Tree.new rfl
  exact ⟨ho, Tree.keys_nodup _ ho⟩

/-- C3: after any sequence of inserts into an initially empty tree, `find`
on any key inserted by that sequence returns a node whose stored value is
the value supplied when the key was (first successfully) inserted —
`alookup` picks the first occurrence, later duplicates having been
rejected by `insert`. -/
theorem c3_find_inserted [LinearOrder K] {V : Type} (l : List (K × V)) (ky : K)
    (hk : ky ∈ l.map Prod.fst) :
    ∃ n, (insertList Tree.new l).find ky = some n ∧ alookup l ky = some n.value := by
  have h := insertList_lookup l Tree.new rfl ky
  have hnew : lookupValue (Tree.new : Tree K V) ky = none := rfl
  rw [hnew] at h
  have h2 : lookupValue (insertList Tree.new l) ky = alookup l ky := h
  cases ha : alookup l ky with
  | none =>
    exact absurd ((alookup_eq_none_iff l ky).mp ha) (fun hc => hc hk)
  | some w =>
    rw [ha] at h2
    cases hf : (insertList Tree.new l).find ky with
    | none =>
      rw [lookupValue, hf] at h2
      simp at h2
    | some n =>
      refine ⟨n, rfl, ?_⟩
      rw [lookupValue, hf] at h2
      simp at h2
      rw [h2]

theorem c3_witness :
    ∃ n, (insertList Tree.new [((3 : Int), (7 : Int))]).find 3 = some n
      ∧ alookup [((3 : Int), (7 : Int))] 3 = some n.value :=
  c3_find_inserted [((3 : Int), (7 : Int))] 3 (by decide)

/-- C4: inserting a key already present in an (invariant-respecting) tree
returns `false` and leaves the tree completely unchanged — the returned
tree is equal to the original, so structure, keys and values are all
identical, and in particular the stored value is not updated. -/
theorem c4_duplicate_insert_noop [LinearOrder K] {V : Type} (t : Tree K V)
    (ky : K) (vl : V) (ho : t.ordered = true) (hm : ky ∈ t.keys) :
    t.insert ky vl = (t, false) := by
  obtain ⟨root⟩ := t
  cases root with
  | none => exact absurd hm (by simp [Tree.keys, Node.keysO])
  | some n =>
    rw [Tree.insert_some, Node.insert_at_mem_false n ky vl ho hm]

theorem c4_witness :
    (⟨some (Node.mk (3 : Int) (5 : Int) none none)⟩ : Tree Int Int).insert 3 9
      = (⟨some (Node.mk 3 5 none none)⟩, false) :=
  c4_duplicate_insert_noop (⟨some (Node.mk (3 : Int) (5 : Int) none none)⟩ : Tree Int Int)
    3 9 (by decide) (by decide)

end BinarTree

namespace BinarTree

/-- C5: detaching a key present in an (invariant-respecting) tree returns
exactly the subtree that `find` would return for that key — the node with
that key together with all its descendants; afterwards `find` is absent
for every key of the detached subtree, while every key outside it is
still findable with its value unchanged. -/
theorem c5_detach_present [LinearOrder K] {V : Type} (t : Tree K V) (ky : K)
    (ho : t.ordered = true) (hm : ky ∈ t.keys) :
    ∃ d, (t.detach ky).2 = some d ∧ t.find ky = some d ∧ d.key = ky
      ∧ (∀ x ∈ d.keys, ((t.detach ky).1).find x = none)
      ∧ (∀ x, x ∉ d.keys → lookupValue ((t.detach ky).1) x = lookupValue t x) := by
  have hne : lookupValue t ky ≠ none :=
    fun hn => ((Tree.lookupValue_none_iff t ho ky).mp hn) hm
  cases hf : t.find ky with
  | none => exact absurd (by rw [lookupValue, hf]; rfl) hne
  | some d =>
    have h2 : (t.detach ky).2 = some d := (Tree.detach_snd_eq_find t ho ky).trans hf
    refine ⟨d, h2, rfl, Tree.find_key t ky d hf, ?_, ?_⟩
    · intro x hx
      have hx2 : x ∈ Node.keysO ((t.detach ky).2) := by
        rw [h2]
        exact hx
      exact Tree.find_none_of_not_mem ((t.detach ky).1) (Tree.detach_ordered t ho ky) x
        (Tree.detach_rest_disjoint t ho ky x hx2)
    · intro x hx
      have hx2 : x ∉ Node.keysO ((t.detach ky).2) := by
        rw [h2]
        exact hx
      exact Tree.detach_lookup_outside t ho ky x hx2

theorem c5_witness :
    ∃ d, ((⟨some (Node.mk (2 : Int) (2 : Int) (some (Node.mk 1 1 none none))
          (some (Node.mk 3 3 none none)))⟩ : Tree Int Int).detach 1).2 = some d
      ∧ (⟨some (Node.mk (2 : Int) (2 : Int) (some (Node.mk 1 1 none none))
          (some (Node.mk 3 3 none none)))⟩ : Tree Int Int).find 1 = some d
      ∧ d.key = 1
      ∧ (∀ x ∈ d.keys,
          (((⟨some (Node.mk (2 : Int) (2 : Int) (some (Node.mk 1 1 none none))
            (some (Node.mk 3 3 none none)))⟩ : Tree Int Int).detach 1).1).find x = none)
      ∧ (∀ x, x ∉ d.keys →
          lookupValue (((⟨some (Node.mk (2 : Int) (2 : Int)
              (some (Node.mk 1 1 none none))
              (some (Node.mk 3 3 none none)))⟩ : Tree Int Int).detach 1).1) x
            = lookupValue (⟨some (Node.mk (2 : Int) (2 : Int)
              (some (Node.mk 1 1 none none))
              (some (Node.mk 3 3 none none)))⟩ : Tree Int Int) x) :=
  c5_detach_present
    (⟨some (Node.mk (2 : Int) (2 : Int) (some (Node.mk 1 1 none none))
      (some (Node.mk 3 3 none none)))⟩ : Tree Int Int) 1 (by decide) (by decide)

/-- C6: on the empty tree, `find` returns absent and `detach` returns
absent (leaving the tree empty), for every key. -/
theorem c6_empty_tree [LinearOrder K] {V : Type} (ky : K) :
    (Tree.new : Tree K V).find ky = none
      ∧ (Tree.new : Tree K V).detach ky = (Tree.new, none) :=
  ⟨rfl, rfl⟩

/-- C7: if `detach` on an (invariant-respecting) tree returns a subtree,
then an immediately following `insert` of the same key (with any fresh
value) on the remaining tree returns `true`, because the key is no longer
present there. -/
theorem c7_detach_insert_roundtrip [LinearOrder K] {V : Type} (t : Tree K V)
    (ky : K) (vl : V) (ho : t.ordered = true)
    (hd : ((t.detach ky).2).isSome = true) :
    (((t.detach ky).1).insert ky vl).2 = true := by
  obtain ⟨d, hd2⟩ := Option.isSome_iff_exists.mp hd
  have hfind : t.find ky = some d := (Tree.detach_snd_eq_find t ho ky).symm.trans hd2
  have hkey : d.key = ky := Tree.find_key t ky d hfind
  have hmem : ky ∈ Node.keysO ((t.detach ky).2) := by
    rw [hd2]
    exact hkey ▸ Node.key_mem_keys d
  exact Tree.insert_true_of_not_mem ((t.detach ky).1) ky vl
    (Tree.detach_rest_disjoint t ho ky ky hmem)

theorem c7_witness :
    (((⟨some (Node.mk (1 : Int) (4 : Int) none none)⟩ : Tree Int Int).detach 1).1.insert
      1 7).2 = true :=
  c7_detach_insert_roundtrip
    (⟨some (Node.mk (1 : Int) (4 : Int) none none)⟩ : Tree Int Int) 1 7
    (by decide) (by decide)

/-- C8: the greater-or-equal-left descent policy of `find`/`detach` and
the strict-greater-left policy agree: `find` returns the same result as
the spec-described strict variant `findStrict`, on every tree (hence in
particular on every duplicate-free tree built by insertions), so the
asymmetric comparison policies place every lookup in the same subtree. -/
theorem c8_policies_agree [LinearOrder K] {V : Type} (t : Tree K V) (ky : K) :
    t.find ky = t.findStrict ky := by
  obtain ⟨root⟩ := t
  cases root with
  | none => rfl
  | some n => exact Node.find_at_eq_findStrict_at n ky

/-- C9: if the root node's key matches, `detach` removes the root together
with its entire subtree and returns it, and the tree becomes empty. -/
theorem c9_detach_root [LinearOrder K] {V : Type} (n : Node K V) (ky : K)
    (hk : n.key = ky) :
    (Tree.mk (some n)).detach ky = (⟨none⟩, some n) := by
  rw [Tree.detach_some, if_pos hk]

theorem c9_witness :
    (Tree.mk (some (Node.mk (5 : Int) (5 : Int) none
        (some (Node.mk 7 7 none none))))).detach 5
      = (⟨none⟩, some (Node.mk 5 5 none (some (Node.mk 7 7 none none)))) :=
  c9_detach_root (Node.mk (5 : Int) (5 : Int) none (some (Node.mk 7 7 none none))) 5
    (by decide)

/-- C10: detaching a key that is not present leaves the tree completely
unchanged and returns absent — no link is taken anywhere along the search
path.  This holds for every tree, ordered or not. -/
theorem c10_detach_absent_noop [LinearOrder K] {V : Type} (t : Tree K V) (ky : K)
    (hm : ky ∉ t.keys) : t.detach ky = (t, none) := by
  obtain ⟨root⟩ := t
  cases root with
  | none => rfl
  | some n =>
    rw [Tree.detach_some]
    have hk : ¬ n.key = ky := fun he => hm (he ▸ Node.key_mem_keys n)
    rw [if_neg hk, Node.detach_at_not_mem n ky (by exact hm)]

theorem c10_witness :
    (⟨some (Node.mk (5 : Int) (5 : Int) none none)⟩ : Tree Int Int).detach 3
      = ((⟨some (Node.mk 5 5 none none)⟩ : Tree Int Int), none) :=
  c10_detach_absent_noop (⟨some (Node.mk (5 : Int) (5 : Int) none none)⟩ : Tree Int Int)
    3 (by decide)

end BinarTree
